import Mathlib

/-!
Verification of the percent-encoding and percent-decoding engine of
`microUrllib/parse.py` (the `quote` / `quote_from_bytes` / `unquote` /
`unquote_to_bytes` functions, the `Quoter` escape table and its
process-wide cache).

Modelling conventions:
* byte strings are `List Nat` with every element `< 256`;
* text strings are `List Nat` of Unicode codepoints;
* the process-wide quoter cache `_safe_quoters` is threaded explicitly as a
  `QState` value through the stateful entry points;
* `TypeError` is modelled with `Except String`;
* the only codec exercised by the module defaults is UTF-8, which is
  modelled explicitly (`utf8Encode` / `utf8Decode`).
-/

namespace MicroUrllib

/-- Text (codepoints) or bytes input, mirroring the duck-typed
`str`-or-`bytes` arguments of the Python source. -/
inductive StrOrBytes where
  | str (s : List Nat)
  | bytes (b : List Nat)
deriving DecidableEq

/-- The caller-supplied `safe` argument of `quote` / `quote_from_bytes`,
which may be text or bytes. -/
inductive SafeArg where
  | str (cs : List Nat)
  | bytes (bs : List Nat)
deriving DecidableEq

/-- The raw values of a `SafeArg`, before normalization (used to state
hypotheses such as "the safe set does not contain the byte of the percent
character"). -/
def safeData : SafeArg → List Nat
  | .str cs => cs
  | .bytes bs => bs

/-- `MAX_CACHE_SIZE = 20` from the source.  Declared but never consulted by
any code path. -/
def MAX_CACHE_SIZE : Nat := 20

/-- `_ALWAYS_SAFE`: byte values of
`b"ABCDEFGHIJKLMNOPQRSTUVWXYZabcdefghijklmnopqrstuvwxyz0123456789_.-"`.
The source keeps it as a `frozenset`; it is modelled as the list of its
members (membership is all that is ever used). -/
def alwaysSafeList : List Nat :=
  (List.range 26).map (fun i => 65 + i) ++
  (List.range 26).map (fun i => 97 + i) ++
  (List.range 10).map (fun i => 48 + i) ++ [95, 46, 45]

/-- Normalization of the `safe` argument performed by `quote_from_bytes`:
a text safe set is encoded with `safe.encode("ascii", "ignore")` (dropping
every codepoint above 127 and keeping the rest as identical byte values),
a byte safe set is rebuilt as `bytes([c for c in safe if c < 128])`. -/
def normalizeSafe : SafeArg → List Nat
  | .str cs => cs.filter (fun c => decide (c < 128))
  | .bytes bs => bs.filter (fun c => decide (c < 128))

/-- Value of one hexadecimal digit character (codepoint), either letter
case, as accepted by the `_hextobyte` table of the source. -/
def hexCharVal (c : Nat) : Option Nat :=
  if 48 ≤ c ∧ c ≤ 57 then some (c - 48)
  else if 65 ≤ c ∧ c ≤ 70 then some (c - 65 + 10)
  else if 97 ≤ c ∧ c ≤ 102 then some (c - 97 + 10)
  else none

/-- The `_hextobyte` table: maps a two-byte hex-digit pair to the decoded
byte `int(a + b, 16)`; `none` models a `KeyError` (the pair is not a key of
the dictionary). -/
def hextobyte (a b : Nat) : Option Nat :=
  match hexCharVal a, hexCharVal b with
  | some x, some y => some (16 * x + y)
  | _, _ => none

/-- `string.split(b"%")` generalized to an arbitrary separator byte:
splits a byte list into the (always nonempty) list of its separator-free
segments. -/
def splitOnSep (sep : Nat) : List Nat → List (List Nat)
  | [] => [[]]
  | c :: rest =>
    match splitOnSep sep rest with
    | [] => [[]]
    | s :: ss => if c = sep then [] :: s :: ss else (c :: s) :: ss

/-- The body of the `for item in bits[1:]` loop of `unquote_to_bytes`:
try `_hextobyte[item[:2]]` followed by `item[2:]`; on `KeyError` (invalid
or too-short hex pair) emit a literal percent byte followed by the whole
segment. -/
def processSegment (item : List Nat) : List Nat :=
  match item with
  | a :: b :: rest =>
    match hextobyte a b with
    | some v => v :: rest
    | none => 37 :: item
  | _ => 37 :: item

/-- `unquote_to_bytes` on a byte string: empty input returns empty bytes;
otherwise the input is split on the percent byte (37); a single segment
(no percent present) is returned as the original input; otherwise the
first segment is emitted unchanged and every later segment goes through
`processSegment`.  Total function: the source never raises here. -/
def unquote_to_bytes (s : List Nat) : List Nat :=
  if s = [] then []
  else
    match splitOnSep 37 s with
    | [] => []
    | [_] => s
    | b0 :: rest => b0 ++ (rest.map processSegment).flatten

/-- UTF-8 encoding of one Unicode scalar value. -/
def utf8EncodeChar (c : Nat) : List Nat :=
  if c < 128 then [c]
  else if c < 2048 then [192 + c / 64, 128 + c % 64]
  else if c < 65536 then [224 + c / 4096, 128 + (c / 64) % 64, 128 + c % 64]
  else [240 + c / 262144, 128 + (c / 4096) % 64, 128 + (c / 64) % 64, 128 + c % 64]

/-- `s.encode("utf-8")` for a text string of scalar codepoints. -/
def utf8Encode (s : List Nat) : List Nat := (s.map utf8EncodeChar).flatten

/-- Fuel-indexed body of the UTF-8 decoder (the fuel, instantiated with
the input length by `utf8Decode`, only makes the recursion structural;
each step consumes at least one byte, so the fuel never runs out). -/
def utf8DecodeF : Nat → List Nat → List Nat
  | 0, _ => []
  | _ + 1, [] => []
  | fuel + 1, b :: rest =>
    if b < 128 then b :: utf8DecodeF fuel rest
    else if 194 ≤ b ∧ b ≤ 223 then
      match rest with
      | b2 :: rest2 =>
        if 128 ≤ b2 ∧ b2 ≤ 191 then ((b - 192) * 64 + (b2 - 128)) :: utf8DecodeF fuel rest2
        else 65533 :: utf8DecodeF fuel (b2 :: rest2)
      | [] => [65533]
    else if 224 ≤ b ∧ b ≤ 239 then
      match rest with
      | b2 :: b3 :: rest3 =>
        if (128 ≤ b2 ∧ b2 ≤ 191) ∧ (128 ≤ b3 ∧ b3 ≤ 191) then
          ((b - 224) * 4096 + (b2 - 128) * 64 + (b3 - 128)) :: utf8DecodeF fuel rest3
        else 65533 :: utf8DecodeF fuel (b2 :: b3 :: rest3)
      | r => 65533 :: utf8DecodeF fuel r
    else if 240 ≤ b ∧ b ≤ 244 then
      match rest with
      | b2 :: b3 :: b4 :: rest4 =>
        if (128 ≤ b2 ∧ b2 ≤ 191) ∧ (128 ≤ b3 ∧ b3 ≤ 191) ∧ (128 ≤ b4 ∧ b4 ≤ 191) then
          ((b - 240) * 262144 + (b2 - 128) * 4096 + (b3 - 128) * 64 + (b4 - 128))
            :: utf8DecodeF fuel rest4
        else 65533 :: utf8DecodeF fuel (b2 :: b3 :: b4 :: rest4)
      | r => 65533 :: utf8DecodeF fuel r
    else 65533 :: utf8DecodeF fuel rest

/-- `bytes.decode(encoding, errors)` modelled for the module defaults
(UTF-8 with the `replace` policy): valid sequences decode exactly; an
invalid lead or continuation byte yields the replacement character 65533.
The exact number of bytes consumed per ill-formed sequence approximates
the codec; every theorem below only exercises well-formed sequences. -/
def utf8Decode (s : List Nat) : List Nat := utf8DecodeF s.length s

/-- Equality of `Except` results is decidable componentwise. -/
instance : DecidableEq (Except String (List Nat)) := fun a b =>
  match a, b with
  | .ok x, .ok y => decidable_of_iff (x = y) (by simp)
  | .error x, .error y => decidable_of_iff (x = y) (by simp)
  | .ok _, .error _ => isFalse (by simp)
  | .error _, .ok _ => isFalse (by simp)

/-- `unquote_to_bytes` applied to a text argument: the source first checks
for emptiness, then encodes the text as UTF-8 and proceeds on the bytes. -/
def unquote_to_bytes_str (s : List Nat) : List Nat :=
  if s = [] then [] else unquote_to_bytes (utf8Encode s)

/-- Accumulator loop of `split_on_non_ascii`: `current` collects the ASCII
run being built; a non-ASCII character flushes the run (when nonempty) and
is appended as its own single-character element. -/
def sona_aux : List Nat → List Nat → List (List Nat)
  | current, [] => if current = [] then [] else [current]
  | current, c :: rest =>
    if c ≤ 127 then sona_aux (current ++ [c]) rest
    else (if current = [] then [] else [current]) ++ [c] :: sona_aux [] rest

/-- `split_on_non_ascii(s)`: splits a text string into maximal ASCII runs
and single non-ASCII characters, in input order. -/
def split_on_non_ascii (s : List Nat) : List (List Nat) :=
  sona_aux [] s

/-- The `for i in range(0, len(bits), 2)` loop of `unquote`: even-indexed
elements are byte-unescaped and decoded, odd-indexed elements are appended
verbatim. -/
def uqLoop : List (List Nat) → List Nat
  | [] => []
  | [x] => utf8Decode (unquote_to_bytes_str x)
  | x :: y :: rest => utf8Decode (unquote_to_bytes_str x) ++ y ++ uqLoop rest

/-- `unquote(string, encoding, errors)` modelled at the module defaults
`encoding="utf-8"`, `errors="replace"` (a `None` argument falls back to
exactly these defaults in the source).  If the input has no percent
character it is returned unchanged; otherwise it is split by
`split_on_non_ascii` and rebuilt through `uqLoop`. -/
def unquote (s : List Nat) : List Nat :=
  if 37 ∈ s then uqLoop (split_on_non_ascii s) else s

/-- Uppercase hex digit character (codepoint) of a nibble, as produced by
the `"%\x7b:02X\x7d".format(b)` escape of `Quoter.get`. -/
def hexUpper (n : Nat) : Nat :=
  if n < 10 then 48 + n else 55 + n

/-- The `Quoter` object.  Its `__init__` stores
`self.safe = _ALWAYS_SAFE.union(safe)`; the union of the two sets is
modelled as the concatenated member list (only membership is ever used).
The per-byte memo dictionary `self.cache` is omitted: it caches the pure
rendering and is observationally transparent. -/
structure Quoter where
  safe : List Nat
deriving DecidableEq

/-- `Quoter(safe)`: constructs the quoter for a normalized safe byte
string, with effective safe set `_ALWAYS_SAFE.union(safe)`. -/
def mkQuoter (safe : List Nat) : Quoter :=
  ⟨alwaysSafeList ++ safe⟩

/-- `Quoter.get(b)`: the rendering of one byte value (`b < 256`) — the
single literal character when the byte is in the effective safe set,
otherwise the three-character escape of `%` and two uppercase hex digits. -/
def Quoter.get (q : Quoter) (b : Nat) : List Nat :=
  if b ∈ q.safe then [b] else [37, hexUpper (b / 16), hexUpper (b % 16)]

/-- The process-wide state: the `_safe_quoters` dictionary, keyed by the
normalized safe byte string (insertion-ordered association list). -/
structure QState where
  quoters : List (List Nat × Quoter)
deriving DecidableEq

/-- The initial state: `_safe_quoters = \x7b\x7d`. -/
def initState : QState := ⟨[]⟩

/-- Dictionary lookup `_safe_quoters[safe]`; `none` models `KeyError`. -/
def lookupQ : List (List Nat × Quoter) → List Nat → Option Quoter
  | [], _ => none
  | (k, q) :: rest, key => if k = key then some q else lookupQ rest key

/-- `clear_cache()`: empties the quoters dictionary. -/
def clear_cache (_st : QState) : QState := ⟨[]⟩

/-- `quote_from_bytes(bs, safe)` with the cache state threaded explicitly.
A non-byte input raises `TypeError`; empty bytes return the empty string;
`safe` is normalized; if every byte is already safe (the
`bs.rstrip(_ALWAYS_SAFE_BYTES + safe)` test is empty) the bytes are
decoded directly (all are ASCII, so the decode is the identity on
codepoints); otherwise the cached quoter for the normalized key is used,
or a fresh one is constructed and stored, and the renderings of all bytes
are concatenated. -/
def quote_from_bytes_st (st : QState) (input : StrOrBytes) (safe : SafeArg) :
    Except String (List Nat) × QState :=
  match input with
  | .str _ => (.error "quote_from_bytes expected bytes", st)
  | .bytes bs =>
    if bs = [] then (.ok [], st)
    else if ∀ b ∈ bs, b ∈ alwaysSafeList ++ normalizeSafe safe then (.ok bs, st)
    else
      match lookupQ st.quoters (normalizeSafe safe) with
      | some quoter => (.ok ((bs.map quoter.get).flatten), st)
      | none =>
        (.ok ((bs.map (mkQuoter (normalizeSafe safe)).get).flatten),
          ⟨st.quoters ++ [(normalizeSafe safe, mkQuoter (normalizeSafe safe))]⟩)

/-- `quote(string, safe, encoding, errors)` with the cache state threaded
explicitly.  Text input: empty text returns itself; otherwise the text is
encoded (modelled at the default UTF-8 codec) and handed to
`quote_from_bytes`.  Byte input: a supplied `encoding` or `errors`
argument raises `TypeError` before anything else happens. -/
def quote_st (st : QState) (input : StrOrBytes) (safe : SafeArg)
    (encoding errors : Option String) : Except String (List Nat) × QState :=
  match input with
  | .str s =>
    if s = [] then (.ok s, st)
    else quote_from_bytes_st st (.bytes (utf8Encode s)) safe
  | .bytes b =>
    if encoding.isSome then (.error "quote does not support encoding for bytes", st)
    else if errors.isSome then (.error "quote does not support errors for bytes", st)
    else quote_from_bytes_st st (.bytes b) safe

/-- The observable output of `quote_from_bytes` on a byte string — the
source with the cache inlined (the cache never changes the output, only
saves recomputation; `qfb_st_ok` below proves the agreement with the
stateful version under the cache invariant). -/
def quote_from_bytes (bs : List Nat) (safe : SafeArg) : List Nat :=
  if bs = [] then []
  else if ∀ b ∈ bs, b ∈ alwaysSafeList ++ normalizeSafe safe then bs
  else (bs.map (mkQuoter (normalizeSafe safe)).get).flatten

/-- Runs a sequence of `quote_from_bytes` calls against the cache state
(each `quote` call on nonempty input defers to `quote_from_bytes`, so this
also covers the cache effects of `quote`). -/
def runCalls : QState → List (StrOrBytes × SafeArg) → QState
  | st, [] => st
  | st, c :: rest => runCalls (quote_from_bytes_st st c.1 c.2).2 rest

/-- The cache invariant: every stored entry maps its key `k` to a quoter
whose effective safe set is the union of the always-safe set and `k`. -/
def CacheInv (st : QState) : Prop :=
  ∀ p ∈ st.quoters, p.2.safe = alwaysSafeList ++ p.1

/-- Reassembly of the split segments as described in §4.2 of the spec:
the first segment unchanged, every later segment through
`processSegment`. -/
def processSplit : List (List Nat) → List Nat
  | [] => []
  | b0 :: rest => b0 ++ (rest.map processSegment).flatten

/-- No two adjacent elements of a split are both ASCII-only runs (this is
the maximality of the ASCII runs produced by `split_on_non_ascii`). -/
def noAdjAscii : List (List Nat) → Prop
  | a :: b :: rest =>
    (¬((∀ c ∈ a, c ≤ 127) ∧ (∀ c ∈ b, c ≤ 127))) ∧ noAdjAscii (b :: rest)
  | _ => True

theorem splitOnSep_ne_nil (sep : Nat) (s : List Nat) : splitOnSep sep s ≠ [] := by
  cases s with
  | nil => simp [splitOnSep]
  | cons c rest =>
    simp only [splitOnSep]
    rcases splitOnSep sep rest with _ | ⟨a, l⟩
    · simp
    · by_cases hc : c = sep <;> simp [hc]

theorem splitOnSep_cons_of_ne (sep c : Nat) (t : List Nat) (h : c ≠ sep)
    (s : List Nat) (ss : List (List Nat)) (ht : splitOnSep sep t = s :: ss) :
    splitOnSep sep (c :: t) = (c :: s) :: ss := by
  simp [splitOnSep, ht, h]

theorem splitOnSep_cons_sep (sep : Nat) (t : List Nat) :
    splitOnSep sep (sep :: t) = [] :: splitOnSep sep t := by
  simp only [splitOnSep]
  rcases h : splitOnSep sep t with _ | ⟨s, ss⟩
  · exact absurd h (splitOnSep_ne_nil sep t)
  · simp

theorem splitOnSep_eq_singleton (sep : Nat) (s b0 : List Nat)
    (h : splitOnSep sep s = [b0]) : b0 = s := by
  induction s generalizing b0 with
  | nil =>
    simp [splitOnSep] at h
    exact h
  | cons c rest ih =>
    by_cases hc : c = sep
    · rw [hc, splitOnSep_cons_sep] at h
      have hne := splitOnSep_ne_nil sep rest
      injection h with h1 h2
      exact absurd h2 hne
    · rcases hsp : splitOnSep sep rest with _ | ⟨s1, ss⟩
      · exact absurd hsp (splitOnSep_ne_nil _ _)
      · rw [splitOnSep_cons_of_ne sep c rest hc s1 ss hsp] at h
        injection h with h1 h2
        subst h2
        rw [← h1, ih s1 hsp]

theorem uqtb_eq_processSplit (s : List Nat) :
    unquote_to_bytes s = processSplit (splitOnSep 37 s) := by
  by_cases hs : s = []
  · subst hs
    simp [unquote_to_bytes, splitOnSep, processSplit]
  · rcases h : splitOnSep 37 s with _ | ⟨b0, _ | ⟨b1, rest⟩⟩
    · exact absurd h (splitOnSep_ne_nil _ _)
    · have hb0 : b0 = s := splitOnSep_eq_singleton _ _ _ h
      simp [unquote_to_bytes, hs, h, processSplit, hb0]
    · simp [unquote_to_bytes, hs, h, processSplit]

theorem hexUpper_facts : ∀ n, n < 16 → hexUpper n ≠ 37 ∧ hexUpper n < 128 := by decide

set_option maxRecDepth 4096 in
theorem hex_roundtrip :
    ∀ b, b < 256 → hextobyte (hexUpper (b / 16)) (hexUpper (b % 16)) = some b := by decide

theorem alwaysSafe_facts :
    (37 : Nat) ∉ alwaysSafeList ∧ ∀ b ∈ alwaysSafeList, b < 128 := by decide

theorem flatten_map_singleton (f : Nat → List Nat) (bs : List Nat)
    (h : ∀ b ∈ bs, f b = [b]) : (bs.map f).flatten = bs := by
  induction bs with
  | nil => simp
  | cons b t ih =>
    simp only [List.map_cons, List.flatten_cons, h b (by simp)]
    rw [ih (fun x hx => h x (by simp [hx]))]
    rfl

theorem qfb_flatten (bs : List Nat) (safe : SafeArg) :
    quote_from_bytes bs safe = (bs.map (mkQuoter (normalizeSafe safe)).get).flatten := by
  unfold quote_from_bytes
  by_cases hbs : bs = []
  · subst hbs; simp
  · rw [if_neg hbs]
    by_cases hall : ∀ b ∈ bs, b ∈ alwaysSafeList ++ normalizeSafe safe
    · rw [if_pos hall]
      refine (flatten_map_singleton _ _ ?_).symm
      intro b hb
      have := hall b hb
      simp only [Quoter.get, mkQuoter]
      rw [if_pos this]
    · rw [if_neg hall]

theorem rt_aux (q : Quoter) (h37 : 37 ∉ q.safe) :
    ∀ bs : List Nat, (∀ b ∈ bs, b < 256) →
      processSplit (splitOnSep 37 ((bs.map q.get).flatten)) = bs := by
  intro bs
  induction bs with
  | nil => intro _; simp [splitOnSep, processSplit]
  | cons b t ih =>
    intro h
    have hb : b < 256 := h b (by simp)
    have ht : ∀ x ∈ t, x < 256 := fun x hx => h x (by simp [hx])
    obtain ⟨s, ss, hsp⟩ : ∃ s ss, splitOnSep 37 ((t.map q.get).flatten) = s :: ss := by
      rcases hq : splitOnSep 37 ((t.map q.get).flatten) with _ | ⟨s, ss⟩
      · exact absurd hq (splitOnSep_ne_nil _ _)
      · exact ⟨s, ss, rfl⟩
    have iht := ih ht
    rw [hsp] at iht
    by_cases hmem : b ∈ q.safe
    · have hb37 : b ≠ 37 := fun he => h37 (he ▸ hmem)
      have hfl : ((b :: t).map q.get).flatten = b :: (t.map q.get).flatten := by
        simp [Quoter.get, hmem]
      rw [hfl, splitOnSep_cons_of_ne 37 b _ hb37 s ss hsp]
      simp only [processSplit] at iht ⊢
      simp [iht]
    · have hdiv : b / 16 < 16 := Nat.div_lt_of_lt_mul (by omega)
      have hmod : b % 16 < 16 := Nat.mod_lt _ (by omega)
      have e1 : hexUpper (b / 16) ≠ 37 := (hexUpper_facts _ hdiv).1
      have e2 : hexUpper (b % 16) ≠ 37 := (hexUpper_facts _ hmod).1
      have hfl : ((b :: t).map q.get).flatten =
          37 :: hexUpper (b / 16) :: hexUpper (b % 16) :: (t.map q.get).flatten := by
        simp [Quoter.get, hmem]
      have hs2 := splitOnSep_cons_of_ne 37 (hexUpper (b % 16)) _ e2 s ss hsp
      have hs1 := splitOnSep_cons_of_ne 37 (hexUpper (b / 16)) _ e1 _ ss hs2
      rw [hfl, splitOnSep_cons_sep, hs1]
      simp only [processSplit] at iht ⊢
      simp only [List.map_cons, List.flatten_cons, List.nil_append]
      have hps : processSegment (hexUpper (b / 16) :: hexUpper (b % 16) :: s) = b :: s := by
        simp [processSegment, hex_roundtrip b hb]
      rw [hps]
      simp [iht]

/-- C2: for every byte sequence `bs` and every safe argument whose raw
values do not contain the percent byte 37,
`unquote_to_bytes (quote_from_bytes bs safe) = bs`. -/
theorem quote_unquote_roundtrip (bs : List Nat) (safe : SafeArg)
    (hb : ∀ x ∈ bs, x < 256) (hs : 37 ∉ safeData safe) :
    unquote_to_bytes (quote_from_bytes bs safe) = bs := by
  rw [qfb_flatten, uqtb_eq_processSplit]
  refine rt_aux _ ?_ bs hb
  have h1 : (37 : Nat) ∉ alwaysSafeList := alwaysSafe_facts.1
  have h2 : (37 : Nat) ∉ normalizeSafe safe := by
    cases safe with
    | str cs =>
      intro hmem
      simp only [normalizeSafe, List.mem_filter] at hmem
      exact hs hmem.1
    | bytes l =>
      intro hmem
      simp only [normalizeSafe, List.mem_filter] at hmem
      exact hs hmem.1
  simp only [mkQuoter, List.mem_append]
  exact fun hc => hc.elim h1 h2

/-- Witness for C2 at a concrete byte sequence and safe set. -/
theorem quote_unquote_roundtrip_witness :
    unquote_to_bytes (quote_from_bytes [0, 37, 255, 47] (SafeArg.bytes [])) =
      [0, 37, 255, 47] :=
  quote_unquote_roundtrip [0, 37, 255, 47] (SafeArg.bytes []) (by decide) (by decide)

theorem lookupQ_mem (l : List (List Nat × Quoter)) (key : List Nat) (q : Quoter)
    (h : lookupQ l key = some q) : (key, q) ∈ l := by
  induction l with
  | nil => simp [lookupQ] at h
  | cons p rest ih =>
    rcases p with ⟨k, qq⟩
    simp only [lookupQ] at h
    by_cases hk : k = key
    · rw [if_pos hk] at h
      injection h with h
      rw [← hk, h]
      exact List.mem_cons_self _ _
    · rw [if_neg hk] at h
      exact List.mem_cons_of_mem _ (ih h)

theorem qfb_st_ok (st : QState) (hinv : CacheInv st) (bs : List Nat) (safe : SafeArg) :
    (quote_from_bytes_st st (.bytes bs) safe).1 = .ok (quote_from_bytes bs safe) := by
  simp only [quote_from_bytes_st, quote_from_bytes]
  by_cases hbs : bs = []
  · rw [if_pos hbs, if_pos hbs]
  · rw [if_neg hbs, if_neg hbs]
    by_cases hall : ∀ b ∈ bs, b ∈ alwaysSafeList ++ normalizeSafe safe
    · rw [if_pos hall, if_pos hall]
    · rw [if_neg hall, if_neg hall]
      rcases hlq : lookupQ st.quoters (normalizeSafe safe) with _ | q
      · simp [hlq]
      · simp only [hlq]
        have hq : q.safe = alwaysSafeList ++ normalizeSafe safe :=
          hinv _ (lookupQ_mem _ _ _ hlq)
        have hqe : q = mkQuoter (normalizeSafe safe) := by
          cases q
          simp only [mkQuoter] at hq ⊢
          rw [Quoter.mk.injEq]
          exact hq
        rw [hqe]

theorem hexUpper_digit :
    ∀ n, n < 16 →
      (48 ≤ hexUpper n ∧ hexUpper n ≤ 57) ∨ (65 ≤ hexUpper n ∧ hexUpper n ≤ 70) := by
  decide

theorem eff_lt_128 (safe : SafeArg) (b : Nat)
    (h : b ∈ alwaysSafeList ++ normalizeSafe safe) : b < 128 := by
  rcases List.mem_append.mp h with h1 | h2
  · exact alwaysSafe_facts.2 b h1
  · cases safe with
    | str cs =>
      simp only [normalizeSafe, List.mem_filter, decide_eq_true_eq] at h2
      exact h2.2
    | bytes l =>
      simp only [normalizeSafe, List.mem_filter, decide_eq_true_eq] at h2
      exact h2.2

/-- C3: every byte of a `quote_from_bytes` input is rendered through the
quoter, in order: a byte in the effective safe set (the union of the
always-safe set and the normalized caller safe set) appears as its single
literal character, never escaped; any other byte is rendered as exactly
the three characters percent, uppercase-hex high nibble and uppercase-hex
low nibble of its value. -/
theorem quote_byte_rendering (bs : List Nat) (safe : SafeArg) :
    quote_from_bytes bs safe = (bs.map (mkQuoter (normalizeSafe safe)).get).flatten ∧
    ∀ b, b < 256 →
      (b ∈ alwaysSafeList ++ normalizeSafe safe →
        (mkQuoter (normalizeSafe safe)).get b = [b]) ∧
      (b ∉ alwaysSafeList ++ normalizeSafe safe →
        (mkQuoter (normalizeSafe safe)).get b =
            [37, hexUpper (b / 16), hexUpper (b % 16)] ∧
          ((mkQuoter (normalizeSafe safe)).get b).length = 3 ∧
          (48 ≤ hexUpper (b / 16) ∧ hexUpper (b / 16) ≤ 57 ∨
            65 ≤ hexUpper (b / 16) ∧ hexUpper (b / 16) ≤ 70) ∧
          (48 ≤ hexUpper (b % 16) ∧ hexUpper (b % 16) ≤ 57 ∨
            65 ≤ hexUpper (b % 16) ∧ hexUpper (b % 16) ≤ 70) ∧
          hextobyte (hexUpper (b / 16)) (hexUpper (b % 16)) = some b) := by
  refine ⟨qfb_flatten bs safe, ?_⟩
  intro b hb
  have hdiv : b / 16 < 16 := Nat.div_lt_of_lt_mul (by omega)
  have hmod : b % 16 < 16 := Nat.mod_lt _ (by omega)
  constructor
  · intro hmem
    simp only [Quoter.get, mkQuoter]
    rw [if_pos hmem]
  · intro hmem
    have hget : (mkQuoter (normalizeSafe safe)).get b =
        [37, hexUpper (b / 16), hexUpper (b % 16)] := by
      simp only [Quoter.get, mkQuoter]
      rw [if_neg hmem]
    refine ⟨hget, by rw [hget]; rfl, hexUpper_digit _ hdiv, hexUpper_digit _ hmod,
      hex_roundtrip b hb⟩

/-- Witness for C3 at concrete bytes: 65 is always-safe, 47 is in the
caller safe set, 32 is escaped as percent-2-0. -/
theorem quote_byte_rendering_witness :
    quote_from_bytes [65, 32, 47] (SafeArg.bytes [47]) =
      (([65, 32, 47]).map (mkQuoter (normalizeSafe (SafeArg.bytes [47]))).get).flatten ∧
    (mkQuoter (normalizeSafe (SafeArg.bytes [47]))).get 65 = [65] ∧
    (mkQuoter (normalizeSafe (SafeArg.bytes [47]))).get 47 = [47] ∧
    (mkQuoter (normalizeSafe (SafeArg.bytes [47]))).get 32 =
      [37, hexUpper (32 / 16), hexUpper (32 % 16)] := by
  obtain ⟨h1, h2⟩ := quote_byte_rendering [65, 32, 47] (SafeArg.bytes [47])
  exact ⟨h1, (h2 65 (by decide)).1 (by decide), (h2 47 (by decide)).1 (by decide),
    ((h2 32 (by decide)).2 (by decide)).1⟩

/-- C4: `unquote_to_bytes` splits on the percent byte, emits the first
segment unchanged, decodes a valid leading hex pair of each later segment
(either letter case) and passes malformed or truncated escapes through
verbatim with a literal percent byte; it is a total function (never an
error), and concretely the bytes of "100%gg" come back unchanged. -/
theorem unquote_to_bytes_segments :
    (∀ s, unquote_to_bytes s = processSplit (splitOnSep 37 s)) ∧
    (∀ a b rest, (hexCharVal a).isSome → (hexCharVal b).isSome →
      processSegment (a :: b :: rest) =
        (16 * (hexCharVal a).getD 0 + (hexCharVal b).getD 0) :: rest) ∧
    (∀ a b rest, ¬((hexCharVal a).isSome ∧ (hexCharVal b).isSome) →
      processSegment (a :: b :: rest) = 37 :: a :: b :: rest) ∧
    (∀ seg, seg.length < 2 → processSegment seg = 37 :: seg) ∧
    unquote_to_bytes [49, 48, 48, 37, 103, 103] = [49, 48, 48, 37, 103, 103] := by
  refine ⟨uqtb_eq_processSplit, ?_, ?_, ?_, by decide⟩
  · intro a b rest ha hb
    rcases hva : hexCharVal a with _ | x
    · rw [hva] at ha; simp at ha
    · rcases hvb : hexCharVal b with _ | y
      · rw [hvb] at hb; simp at hb
      · simp [processSegment, hextobyte, hva, hvb]
  · intro a b rest hnot
    rcases hva : hexCharVal a with _ | x
    · simp [processSegment, hextobyte, hva]
    · rcases hvb : hexCharVal b with _ | y
      · simp [processSegment, hextobyte, hva, hvb]
      · exact absurd ⟨by simp [hva], by simp [hvb]⟩ hnot
  · intro seg hlen
    rcases seg with _ | ⟨a, _ | ⟨b, t⟩⟩
    · simp [processSegment]
    · simp [processSegment]
    · simp only [List.length_cons] at hlen
      omega

/-- Witness for C4: a valid pair decodes, an invalid pair and a short
segment pass through. -/
theorem unquote_to_bytes_segments_witness :
    processSegment [52, 49, 50] =
      (16 * (hexCharVal 52).getD 0 + (hexCharVal 49).getD 0) :: [50] ∧
    processSegment [103, 103] = [37, 103, 103] ∧
    processSegment [52] = [37, 52] :=
  ⟨unquote_to_bytes_segments.2.1 52 49 [50] (by decide) (by decide),
    unquote_to_bytes_segments.2.2.1 103 103 [] (by decide),
    unquote_to_bytes_segments.2.2.2.1 [52] (by decide)⟩

/-- C5: the output of `quote_from_bytes` is pure ASCII for every byte
input and every safe argument, and the safe argument is normalized by
dropping every value at or above 128 (text safe sets through the
ascii-ignore encode, byte safe sets through an explicit filter). -/
theorem quote_output_ascii :
    (∀ bs safe, (∀ b ∈ bs, b < 256) → ∀ c ∈ quote_from_bytes bs safe, c < 128) ∧
    (∀ cs, normalizeSafe (SafeArg.str cs) = cs.filter (fun c => decide (c < 128))) ∧
    (∀ l, normalizeSafe (SafeArg.bytes l) = l.filter (fun c => decide (c < 128))) := by
  refine ⟨?_, fun cs => rfl, fun l => rfl⟩
  intro bs safe hbs c hc
  rw [qfb_flatten] at hc
  obtain ⟨t, ht, hct⟩ := List.mem_flatten.mp hc
  obtain ⟨b, hb, rfl⟩ := List.mem_map.mp ht
  have hb256 : b < 256 := hbs b hb
  have hdiv : b / 16 < 16 := Nat.div_lt_of_lt_mul (by omega)
  have hmod : b % 16 < 16 := Nat.mod_lt _ (by omega)
  simp only [Quoter.get, mkQuoter] at hct
  by_cases hmem : b ∈ alwaysSafeList ++ normalizeSafe safe
  · rw [if_pos hmem] at hct
    simp at hct
    rw [hct]
    exact eff_lt_128 safe b hmem
  · rw [if_neg hmem] at hct
    simp at hct
    rcases hct with h | h | h <;> rw [h]
    · omega
    · exact (hexUpper_facts _ hdiv).2
    · exact (hexUpper_facts _ hmod).2

/-- Witness for C5: two non-ASCII bytes with a non-ASCII text safe set
escape to pure ASCII. -/
theorem quote_output_ascii_witness :
    quote_from_bytes [200, 233] (SafeArg.str [247]) = [37, 67, 56, 37, 69, 57] ∧
    (37 : Nat) < 128 :=
  ⟨by decide, quote_output_ascii.1 [200, 233] (SafeArg.str [247]) (by decide) 37 (by decide)⟩

theorem qfb_st_cache (st : QState) (input : StrOrBytes) (safe : SafeArg) :
    (quote_from_bytes_st st input safe).2.quoters = st.quoters ∨
    (quote_from_bytes_st st input safe).2.quoters =
      st.quoters ++ [(normalizeSafe safe, mkQuoter (normalizeSafe safe))] := by
  cases input with
  | str s => exact Or.inl rfl
  | bytes bs =>
    simp only [quote_from_bytes_st]
    by_cases hbs : bs = []
    · rw [if_pos hbs]; exact Or.inl rfl
    · rw [if_neg hbs]
      by_cases hall : ∀ b ∈ bs, b ∈ alwaysSafeList ++ normalizeSafe safe
      · rw [if_pos hall]; exact Or.inl rfl
      · rw [if_neg hall]
        rcases hlq : lookupQ st.quoters (normalizeSafe safe) with _ | q
        · simp [hlq]
        · simp [hlq]

theorem qfb_st_mono (st : QState) (input : StrOrBytes) (safe : SafeArg) :
    ∀ e ∈ st.quoters, e ∈ (quote_from_bytes_st st input safe).2.quoters := by
  intro e he
  rcases qfb_st_cache st input safe with h | h <;> rw [h]
  · exact he
  · exact List.mem_append_left _ he

theorem quote_st_mono (st : QState) (input : StrOrBytes) (safe : SafeArg)
    (enc errs : Option String) :
    ∀ e ∈ st.quoters, e ∈ (quote_st st input safe enc errs).2.quoters := by
  intro e he
  cases input with
  | str s =>
    simp only [quote_st]
    by_cases hs : s = []
    · rw [if_pos hs]; exact he
    · rw [if_neg hs]; exact qfb_st_mono _ _ _ e he
  | bytes b =>
    simp only [quote_st]
    by_cases henc : enc.isSome
    · rw [if_pos henc]; exact he
    · rw [if_neg henc]
      by_cases herr : errs.isSome
      · rw [if_pos herr]; exact he
      · rw [if_neg herr]; exact qfb_st_mono _ _ _ e he

theorem runCalls_mono (calls : List (StrOrBytes × SafeArg)) :
    ∀ st : QState, ∀ e ∈ st.quoters, e ∈ (runCalls st calls).quoters := by
  induction calls with
  | nil => intro st e he; exact he
  | cons c rest ih =>
    intro st e he
    simp only [runCalls]
    exact ih _ e (qfb_st_mono _ _ _ e he)

/-- C6: calls whose normalized safe sets are equal by value behave
identically (same output, same cache transition); when the normalized key
is already stored, the call reuses the stored quoter and stores nothing
new; the cache invariant — every stored key maps to the quoter whose
effective safe set is the union of the always-safe set and the key —
holds initially and is preserved by every call. -/
theorem quoter_cache_consistency :
    (∀ st bs s1 s2, normalizeSafe s1 = normalizeSafe s2 →
      quote_from_bytes_st st (.bytes bs) s1 = quote_from_bytes_st st (.bytes bs) s2) ∧
    (∀ st bs safe, (lookupQ st.quoters (normalizeSafe safe)).isSome →
      (quote_from_bytes_st st (.bytes bs) safe).2 = st) ∧
    (∀ st input safe, CacheInv st → CacheInv (quote_from_bytes_st st input safe).2) ∧
    CacheInv initState := by
  refine ⟨?_, ?_, ?_, ?_⟩
  · intro st bs s1 s2 h
    simp only [quote_from_bytes_st, h]
  · intro st bs safe hsome
    simp only [quote_from_bytes_st]
    by_cases hbs : bs = []
    · rw [if_pos hbs]
    · rw [if_neg hbs]
      by_cases hall : ∀ b ∈ bs, b ∈ alwaysSafeList ++ normalizeSafe safe
      · rw [if_pos hall]
      · rw [if_neg hall]
        rcases hlq : lookupQ st.quoters (normalizeSafe safe) with _ | q
        · rw [hlq] at hsome
          simp at hsome
        · simp only [hlq]
  · intro st input safe hinv
    cases input with
    | str s => exact hinv
    | bytes bs =>
      simp only [quote_from_bytes_st]
      by_cases hbs : bs = []
      · rw [if_pos hbs]; exact hinv
      · rw [if_neg hbs]
        by_cases hall : ∀ b ∈ bs, b ∈ alwaysSafeList ++ normalizeSafe safe
        · rw [if_pos hall]; exact hinv
        · rw [if_neg hall]
          rcases hlq : lookupQ st.quoters (normalizeSafe safe) with _ | q
          · simp only [hlq]
            intro p hp
            rcases List.mem_append.mp hp with hold | hnew
            · exact hinv p hold
            · simp at hnew
              rw [hnew]
              rfl
          · simp only [hlq]; exact hinv
  · intro p hp
    simp [initState] at hp

/-- Witness for C6: a byte safe set and a text safe set normalizing to
the same key behave identically; a call on a state already holding the
key leaves it unchanged; the invariant holds after a call from the empty
cache. -/
theorem quoter_cache_consistency_witness :
    quote_from_bytes_st ⟨[([47], mkQuoter [47])]⟩ (.bytes [32]) (SafeArg.bytes [47]) =
      quote_from_bytes_st ⟨[([47], mkQuoter [47])]⟩ (.bytes [32]) (SafeArg.str [47, 200]) ∧
    (quote_from_bytes_st ⟨[([47], mkQuoter [47])]⟩ (.bytes [32]) (SafeArg.bytes [47])).2 =
      ⟨[([47], mkQuoter [47])]⟩ ∧
    CacheInv (quote_from_bytes_st initState (.bytes [32]) (SafeArg.bytes [47])).2 :=
  ⟨quoter_cache_consistency.1 _ _ _ _ (by decide),
    quoter_cache_consistency.2.1 _ _ _ (by decide),
    quoter_cache_consistency.2.2.1 _ _ _ quoter_cache_consistency.2.2.2⟩

/-- C7: supplying encoding or errors together with a bytes input makes
`quote` fail with a type error before any output is produced and leaves
the cache untouched; a text input to `quote_from_bytes` fails with a type
error and leaves the cache untouched. -/
theorem quote_type_errors :
    (∀ st b safe enc errs, enc.isSome ∨ errs.isSome →
      ∃ m, quote_st st (.bytes b) safe enc errs = (.error m, st)) ∧
    (∀ st s safe, ∃ m, quote_from_bytes_st st (.str s) safe = (.error m, st)) := by
  constructor
  · intro st b safe enc errs h
    by_cases henc : enc.isSome
    · refine ⟨"quote does not support encoding for bytes", ?_⟩
      simp only [quote_st]
      rw [if_pos henc]
    · have herr : errs.isSome := h.resolve_left henc
      refine ⟨"quote does not support errors for bytes", ?_⟩
      simp only [quote_st]
      rw [if_neg henc, if_pos herr]
  · intro st s safe
    exact ⟨"quote_from_bytes expected bytes", rfl⟩

/-- Witness for C7 at a concrete state, input and arguments. -/
theorem quote_type_errors_witness :
    (∃ m, quote_st initState (.bytes [65]) (SafeArg.bytes []) (some "utf-8") none =
      (.error m, initState)) ∧
    (∃ m, quote_from_bytes_st initState (.str [65]) (SafeArg.bytes []) =
      (.error m, initState)) :=
  ⟨quote_type_errors.1 initState [65] (SafeArg.bytes []) (some "utf-8") none (Or.inl rfl),
    quote_type_errors.2 initState [65] (SafeArg.bytes [])⟩

/-- C8 as stated is false: one `quote_from_bytes` call with one distinct
safe set but empty input leaves the cache holding 0 entries, not 1. -/
theorem cache_size_claim_false :
    (runCalls initState [(StrOrBytes.bytes [], SafeArg.bytes [33])]).quoters.length = 0 ∧
    ¬(runCalls initState [(StrOrBytes.bytes [], SafeArg.bytes [33])]).quoters.length = 1 := by
  decide

/-- C8 amended: no operation removes or replaces a cache entry except
`clear_cache`, which empties the cache; each call adds at most one entry,
keyed by its normalized safe set; entries survive any sequence of calls;
and the declared `MAX_CACHE_SIZE` is never enforced — 21 calls with
distinct safe sets leave 21 entries, beyond the declared bound. -/
theorem cache_no_eviction :
    (∀ st input safe, ∀ e ∈ st.quoters, e ∈ (quote_from_bytes_st st input safe).2.quoters) ∧
    (∀ st input safe,
      (quote_from_bytes_st st input safe).2.quoters = st.quoters ∨
      (quote_from_bytes_st st input safe).2.quoters =
        st.quoters ++ [(normalizeSafe safe, mkQuoter (normalizeSafe safe))]) ∧
    (∀ st input safe enc errs, ∀ e ∈ st.quoters,
      e ∈ (quote_st st input safe enc errs).2.quoters) ∧
    (∀ st, (clear_cache st).quoters = []) ∧
    (∀ st calls, ∀ e ∈ st.quoters, e ∈ (runCalls st calls).quoters) ∧
    (runCalls initState
        ((List.range 21).map fun i =>
          (StrOrBytes.bytes [37], SafeArg.bytes [i]))).quoters.length = 21 ∧
    MAX_CACHE_SIZE < 21 := by
  refine ⟨qfb_st_mono, qfb_st_cache, quote_st_mono, fun st => rfl,
    fun st calls => runCalls_mono calls st, by decide, by decide⟩

/-- Witness for C8 amended: a stored entry survives a later call with a
different safe set and a whole sequence of calls. -/
theorem cache_no_eviction_witness :
    ([47], mkQuoter [47]) ∈
      (quote_from_bytes_st ⟨[([47], mkQuoter [47])]⟩ (.bytes [32])
        (SafeArg.bytes [43])).2.quoters ∧
    ([47], mkQuoter [47]) ∈
      (runCalls ⟨[([47], mkQuoter [47])]⟩
        [(StrOrBytes.bytes [32], SafeArg.bytes [43]),
          (StrOrBytes.bytes [32], SafeArg.bytes [44])]).quoters :=
  ⟨cache_no_eviction.1 ⟨[([47], mkQuoter [47])]⟩ (.bytes [32]) (SafeArg.bytes [43])
      ([47], mkQuoter [47]) (by decide),
    cache_no_eviction.2.2.2.2.1 ⟨[([47], mkQuoter [47])]⟩
      [(StrOrBytes.bytes [32], SafeArg.bytes [43]),
        (StrOrBytes.bytes [32], SafeArg.bytes [44])]
      ([47], mkQuoter [47]) (by decide)⟩

/-- C9: every public operation maps empty input to the empty value of its
output type, and the cache state is returned untouched. -/
theorem empty_input_laws :
    (∀ st safe enc errs, quote_st st (.str []) safe enc errs = (.ok [], st)) ∧
    (∀ st safe, quote_from_bytes_st st (.bytes []) safe = (.ok [], st)) ∧
    unquote [] = [] ∧
    unquote_to_bytes [] = [] :=
  ⟨fun _ _ _ _ => rfl, fun _ _ => rfl, rfl, rfl⟩

theorem sona_join (s : List Nat) :
    ∀ current, (sona_aux current s).flatten = current ++ s := by
  induction s with
  | nil =>
    intro current
    by_cases hc : current = []
    · simp [sona_aux, hc]
    · simp [sona_aux, hc]
  | cons c rest ih =>
    intro current
    by_cases hc : c ≤ 127
    · simp only [sona_aux]
      rw [if_pos hc, ih (current ++ [c])]
      simp
    · simp only [sona_aux]
      rw [if_neg hc]
      by_cases hcur : current = []
      · simp [hcur, ih []]
      · simp [hcur, ih []]

theorem sona_shape (s : List Nat) :
    ∀ current, (∀ x ∈ current, x ≤ 127) →
      ∀ e ∈ sona_aux current s,
        e ≠ [] ∧ ((∀ c ∈ e, c ≤ 127) ∨ ∃ c, 127 < c ∧ e = [c]) := by
  induction s with
  | nil =>
    intro current hcur e he
    by_cases hc : current = []
    · simp [sona_aux, hc] at he
    · simp only [sona_aux, if_neg hc, List.mem_singleton] at he
      subst he
      exact ⟨hc, Or.inl hcur⟩
  | cons c rest ih =>
    intro current hcur e he
    by_cases hc : c ≤ 127
    · simp only [sona_aux, if_pos hc] at he
      refine ih (current ++ [c]) ?_ e he
      intro x hx
      rcases List.mem_append.mp hx with h | h
      · exact hcur x h
      · simp at h
        omega
    · simp only [sona_aux, if_neg hc] at he
      rcases List.mem_append.mp he with h1 | h2
      · by_cases hcur0 : current = []
        · rw [if_pos hcur0] at h1
          simp at h1
        · rw [if_neg hcur0] at h1
          simp at h1
          subst h1
          exact ⟨hcur0, Or.inl hcur⟩
      · rcases List.mem_cons.mp h2 with h | h
        · subst h
          exact ⟨by simp, Or.inr ⟨c, by omega, rfl⟩⟩
        · exact ih [] (by simp) e h

theorem noAdjAscii_cons (c : Nat) (hc : 127 < c) (L : List (List Nat))
    (hL : noAdjAscii L) : noAdjAscii ([c] :: L) := by
  cases L with
  | nil => simp [noAdjAscii]
  | cons b rest =>
    simp only [noAdjAscii]
    refine ⟨?_, hL⟩
    rintro ⟨h1, -⟩
    exact absurd (h1 c (by simp)) (by omega)

theorem sona_noAdj (s : List Nat) : ∀ current, noAdjAscii (sona_aux current s) := by
  induction s with
  | nil =>
    intro current
    by_cases hc : current = [] <;> simp [sona_aux, hc, noAdjAscii]
  | cons c rest ih =>
    intro current
    by_cases hc : c ≤ 127
    · simp only [sona_aux, if_pos hc]
      exact ih (current ++ [c])
    · simp only [sona_aux, if_neg hc]
      have h1 : noAdjAscii ([c] :: sona_aux [] rest) :=
        noAdjAscii_cons c (by omega) _ (ih [])
      by_cases hcur : current = []
      · rw [if_pos hcur]
        simpa using h1
      · rw [if_neg hcur]
        simp only [List.cons_append, List.nil_append]
        simp only [noAdjAscii]
        refine ⟨?_, h1⟩
        rintro ⟨-, h2⟩
        exact absurd (h2 c (by simp)) (by omega)

/-- C10: `split_on_non_ascii` concatenates back to its input, produces no
empty element, every element is an ASCII-only run or a single non-ASCII
character, the ASCII runs are maximal (no two adjacent elements are both
ASCII-only), and an input starting with a non-ASCII character starts with
that character as its own element, not with an empty ASCII run. -/
theorem split_on_non_ascii_spec :
    (∀ s, (split_on_non_ascii s).flatten = s) ∧
    (∀ s, ∀ e ∈ split_on_non_ascii s,
      e ≠ [] ∧ ((∀ c ∈ e, c ≤ 127) ∨ ∃ c, 127 < c ∧ e = [c])) ∧
    (∀ s, noAdjAscii (split_on_non_ascii s)) ∧
    (∀ c s, 127 < c → (split_on_non_ascii (c :: s)).head? = some [c]) := by
  refine ⟨?_, ?_, ?_, ?_⟩
  · intro s
    simpa using sona_join s []
  · intro s e he
    exact sona_shape s [] (by simp) e he
  · intro s
    exact sona_noAdj s []
  · intro c s hc
    simp only [split_on_non_ascii, sona_aux]
    rw [if_neg (by omega)]
    simp

/-- Witness for C10: an input starting with a non-ASCII character. -/
theorem split_on_non_ascii_spec_witness :
    (split_on_non_ascii [233, 65]).head? = some [233] :=
  split_on_non_ascii_spec.2.2.2 233 [65] (by decide)

/-- C1 fails on the code: in `unquote` of the text 233, percent, 4, 1
(é%41) the escape occurs inside an ASCII run of the input, yet the result
keeps the run verbatim instead of decoding it to 65, because
`split_on_non_ascii` emits no empty run before a leading non-ASCII
character and the even/odd pairing of the `unquote` loop then treats the
ASCII run as a pass-through element; the same escape in a pure-ASCII
input is decoded. -/
theorem unquote_drops_escape_after_non_ascii :
    unquote [233, 37, 52, 49] = [233, 37, 52, 49] ∧
    unquote [233, 37, 52, 49] ≠ [233, 65] ∧
    unquote [37, 52, 49] = [65] :=
  ⟨by decide, by decide, by decide⟩

end MicroUrllib
